import Mathlib

/-!
Verification of the SOAP medical-term annotation engine.

The definitions below shallowly embed the span-reconciliation, combination,
and caching logic of the repository's frontend (`MedicalSpellChecker.js` and
the unnamed variant with the drug-confusion list), together with the
database-side cache sweep from `database_schema.sql`.  The TTL-checked cache
lookup lives only in the backend and is modelled from the specification,
marked as such in its doc comment; everything else is embedded from the
source.
-/

namespace SOAP

/-- Span classification vocabulary of the specification (§3). -/
inductive Classification where
  | Unvalidated
  | Correct
  | Misspelled
  | DrugConfusable
  | UserCorrected
deriving DecidableEq, Repr

/-- A term span as carried by the frontend state (`medicalTerms` /
`confusionMatches` entries): surface text, offsets, the correctness flags the
code reads (the snake_case and camelCase twins are always set together, so one
field each suffices), the provenance tag, the category, and the alternatives
list of drug-confusion matches. -/
structure Term where
  term : String
  start : Int
  «end» : Int
  is_correct : Bool
  needs_correction : Bool
  source : String
  category : String
  alternatives : List String
deriving DecidableEq, Repr

/-- The provenance tags that `getTermClassName` treats as validated. -/
def validatedSources : List String :=
  ["dynamic_list", "local_dictionary", "snomed_ct",
   "llm_identified_snomed_timeout", "llm_corrected"]

/-- Classification of a span as decided by `getTermClassName`
(green = user corrected, yellow = drug confusion, red = misspelled,
blue = correct). -/
def classificationOf (t : Term) : Classification :=
  if t.source = "user_corrected" then Classification.UserCorrected
  else if t.source = "drug_confusion" then Classification.DrugConfusable
  else if t.needs_correction || !(t.is_correct || validatedSources.contains t.source) then
    Classification.Misspelled
  else Classification.Correct

/-- The identity test the reconciler applies:
`t.start === selectedTerm.start && t.end === selectedTerm.end && t.term === selectedTerm.term`. -/
def isSelectedSpan (sel t : Term) : Bool :=
  t.start == sel.start && t.«end» == sel.«end» && t.term == sel.term

/-- Offset shift applied to spans after the replaced range:
`delta = newLen - oldLen` with `oldLen = end - start`. -/
def deltaOf (sel : Term) (replacement : String) : Int :=
  (replacement.length : Int) - (sel.«end» - sel.start)

/-- The corrected span pushed for the selected term in `handleSuggestionSelect`
(`{...t, term: replacementText, start, end: start + newLen, is_correct: true,
needs_correction: false, source: 'user_corrected'}`). -/
def correctedFrom (sel : Term) (replacement : String) (t : Term) : Term :=
  { t with
    term := replacement
    start := sel.start
    «end» := sel.start + (replacement.length : Int)
    is_correct := true
    needs_correction := false
    source := "user_corrected" }

/-- Shift a span's offsets by `delta` (`{...t, start: t.start + delta, end: t.end + delta}`). -/
def shiftBy (delta : Int) (t : Term) : Term :=
  { t with start := t.start + delta, «end» := t.«end» + delta }

/-- The fresh corrected span pushed when the accepted span is found in the
confusion list (built from scratch, with `category: 'corrected'`). -/
def freshCorrected (sel : Term) (replacement : String) : Term :=
  { term := replacement
    start := sel.start
    «end» := sel.start + (replacement.length : Int)
    is_correct := true
    needs_correction := false
    source := "user_corrected"
    category := "corrected"
    alternatives := [] }

/-- The `medicalTerms` loop of `handleSuggestionSelect`: the selected span is
replaced by its corrected version, spans ending at or before the replaced
range are kept, spans starting at or after it are shifted, and anything else
is dropped. -/
def acceptTermsLoop (sel : Term) (replacement : String) : List Term → List Term
  | [] => []
  | t :: ts =>
    if isSelectedSpan sel t then
      correctedFrom sel replacement t :: acceptTermsLoop sel replacement ts
    else if t.«end» ≤ sel.start then
      t :: acceptTermsLoop sel replacement ts
    else if sel.«end» ≤ t.start then
      shiftBy (deltaOf sel replacement) t :: acceptTermsLoop sel replacement ts
    else
      acceptTermsLoop sel replacement ts

/-- The `confusionMatches` loop of `handleSuggestionSelect`: a matching entry
pushes a fresh corrected span into the terms list (first component) and is
removed from the confusion list; others are kept or shifted into the new
confusion list (second component), overlapping ones are dropped. -/
def acceptConfusionLoop (sel : Term) (replacement : String) : List Term → List Term × List Term
  | [] => ([], [])
  | c :: cs =>
    let rest := acceptConfusionLoop sel replacement cs
    if isSelectedSpan sel c then
      (freshCorrected sel replacement :: rest.1, rest.2)
    else if c.«end» ≤ sel.start then
      (rest.1, c :: rest.2)
    else if sel.«end» ≤ c.start then
      (rest.1, shiftBy (deltaOf sel replacement) c :: rest.2)
    else
      rest

/-- State update of `handleSuggestionSelect` (unnamed/part_001 variant):
returns the new `medicalTerms` and the new `confusionMatches`. -/
def handleSuggestionSelect (sel : Term) (replacement : String)
    (medicalTerms confusionMatches : List Term) : List Term × List Term :=
  let conf := acceptConfusionLoop sel replacement confusionMatches
  (acceptTermsLoop sel replacement medicalTerms ++ conf.1, conf.2)

/-- The reviewed version of a span produced by `handleIgnoreTerm`
(`{...t, is_correct: true, needs_correction: false, source: 'user_corrected'}`,
surface text and offsets untouched). -/
def markReviewed (t : Term) : Term :=
  { t with is_correct := true, needs_correction := false, source := "user_corrected" }

/-- The fresh reviewed span `handleIgnoreTerm` pushes when the ignored span is
found only in the confusion list. -/
def freshReviewed (sel : Term) : Term :=
  { term := sel.term
    start := sel.start
    «end» := sel.«end»
    is_correct := true
    needs_correction := false
    source := "user_corrected"
    category := "corrected"
    alternatives := [] }

/-- The `medicalTerms` loop of `handleIgnoreTerm`: the matched span is marked
reviewed, every other span is copied verbatim. -/
def ignoreTermsLoop (sel : Term) : List Term → List Term
  | [] => []
  | t :: ts =>
    if isSelectedSpan sel t then markReviewed t :: ignoreTermsLoop sel ts
    else t :: ignoreTermsLoop sel ts

/-- The `confusionMatches` loop of `handleIgnoreTerm`: a matching entry is
removed from the confusion list and, when no medical term matched
(`!termProcessed`), a fresh reviewed span is pushed into the terms list. -/
def ignoreConfusionLoop (sel : Term) (termProcessed : Bool) : List Term → List Term × List Term
  | [] => ([], [])
  | c :: cs =>
    let rest := ignoreConfusionLoop sel termProcessed cs
    if isSelectedSpan sel c then
      (if termProcessed then rest.1 else freshReviewed sel :: rest.1, rest.2)
    else
      (rest.1, c :: rest.2)

/-- State update of `handleIgnoreTerm`: returns the new `medicalTerms` and the
new `confusionMatches`. -/
def handleIgnoreTerm (sel : Term) (medicalTerms confusionMatches : List Term) :
    List Term × List Term :=
  let termProcessed := medicalTerms.any (isSelectedSpan sel)
  let conf := ignoreConfusionLoop sel termProcessed confusionMatches
  (ignoreTermsLoop sel medicalTerms ++ conf.1, conf.2)

/-- JavaScript `String.prototype.trim`: strip whitespace from both ends. -/
def strTrim (s : String) : String :=
  ((s.data.dropWhile Char.isWhitespace).reverse.dropWhile Char.isWhitespace).reverse.asString

/-- JavaScript `String.prototype.toLowerCase` on the character list. -/
def strLower (s : String) : String :=
  (s.data.map Char.toLower).asString

/-- JavaScript `String.prototype.substring`: clamps both indices to the string
length and swaps them when given in the wrong order. -/
def jsSubstring (s : String) (a b : Nat) : String :=
  ((s.data.drop (min a b)).take (max a b - min a b)).asString

/-- The rewritten text computed by `handleSuggestionSelect`:
`textStr.substring(0, start) + replacementText + textStr.substring(end)`. -/
def newTextAfterAccept (sel : Term) (replacement : String) (text : String) : String :=
  jsSubstring text 0 sel.start.toNat ++ replacement ++
    jsSubstring text sel.«end».toNat text.data.length

/-- Follows the spec's words (§4.4 Span Reconciler, clauses 2 to 5): `S`
itself becomes a user-corrected span with surface text `R`, start unchanged
and end `start + len R`; every other span ending at or before `start` is left
unchanged; every other span starting at or after `end` is shifted by `delta`;
any remaining span is dropped.  Stated for comparison with the code's
`acceptTermsLoop`. -/
def spanReconcilerSpec (sel : Term) (R : String) (terms : List Term) : List Term :=
  terms.filterMap fun T =>
    if isSelectedSpan sel T then
      some { T with
        term := R
        start := sel.start
        «end» := sel.start + (R.length : Int)
        is_correct := true
        needs_correction := false
        source := "user_corrected" }
    else if T.«end» ≤ sel.start then some T
    else if sel.«end» ≤ T.start then
      some { T with start := T.start + deltaOf sel R, «end» := T.«end» + deltaOf sel R }
    else none

/-- Key-and-only-shift transform of the accept reconciler for spans other than
the selected one: keep spans before the replaced range, shift spans after it,
drop the rest. -/
def keepOrShift (sel : Term) (replacement : String) (t : Term) : Option Term :=
  if t.«end» ≤ sel.start then some t
  else if sel.«end» ≤ t.start then some (shiftBy (deltaOf sel replacement) t)
  else none

/-- The key `renderHighlightedText` builds for the confusion map and the
suppression filter, compared componentwise (the string encoding
`start + "-" + end + "-" + term` is injective on the triple). -/
def sameKey (a b : Term) : Bool :=
  a.start == b.start && a.«end» == b.«end» && a.term == b.term

/-- The entry `renderHighlightedText` stores in `confusionTermsMap` for a
confusion match (always yellow: source `drug_confusion`, flags cleared). -/
def confusionEntry (m : Term) : Term :=
  { term := m.term
    start := m.start
    «end» := m.«end»
    is_correct := false
    needs_correction := false
    source := "drug_confusion"
    category := if m.category = "" then "drug_confusion" else m.category
    alternatives := m.alternatives }

/-- `Map.set` on an insertion-ordered association list of terms keyed by
`sameKey`: replace in place when the key is present, append otherwise. -/
def mapSetTerm (acc : List Term) (e : Term) : List Term :=
  if acc.any (fun x => sameKey x e) then
    acc.map (fun x => if sameKey x e then e else x)
  else acc ++ [e]

/-- The `confusionTermsMap` of `renderHighlightedText` (unnamed/part_001): one
entry per distinct (start, end, term) key of the confusion matches. -/
def confusionTermsMap (confusionMatches : List Term) : List Term :=
  confusionMatches.foldl (fun acc m => mapSetTerm acc (confusionEntry m)) []

/-- The spell-check terms that survive the suppression filter: those whose key
is not in the confusion map. -/
def filteredMedicalTerms (medicalTerms confusionMatches : List Term) : List Term :=
  medicalTerms.filter
    (fun t => ¬ (confusionTermsMap confusionMatches).any (fun e => sameKey e t))

/-- The combined list `renderHighlightedText` renders: filtered spell-check
terms followed by the confusion-map entries. -/
def combinedTerms (medicalTerms confusionMatches : List Term) : List Term :=
  filteredMedicalTerms medicalTerms confusionMatches ++ confusionTermsMap confusionMatches

/-- Two spans overlap when each starts before the other ends. -/
def overlapsSpan (a b : Term) : Prop :=
  a.start < b.«end» ∧ b.start < a.«end»

instance (a b : Term) : Decidable (overlapsSpan a b) := by
  unfold overlapsSpan
  infer_instance

/-- One insertion step of a stable sort by `start`: the span is placed before
the first already-sorted span whose start is not smaller, so spans with equal
starts keep their original relative order. -/
def insertByStart (t : Term) : List Term → List Term
  | [] => [t]
  | u :: us =>
    if t.start ≤ u.start then t :: u :: us
    else u :: insertByStart t us

/-- Stable sort of a span list ascending by `start`.  `renderHighlightedText`
sorts the combined list with the comparator `(a, b) => a.start - b.start` and
`Array.prototype.sort` is stable, so the rendered order is the unique stable
order by start, which insertion sort produces. -/
def sortByStart : List Term → List Term
  | [] => []
  | t :: ts => insertByStart t (sortByStart ts)

/-- The `sortedTerms` list of `renderHighlightedText` (unnamed/part_001): the
combined spell-check and confusion spans, sorted by position.  This is the
span list one resolution presents to the user. -/
def sortedTerms (medicalTerms confusionMatches : List Term) : List Term :=
  sortByStart (combinedTerms medicalTerms confusionMatches)

/-- The payload cached by `checkMedicalTerms` for one normalized text: the
response's results, unique count and total occurrences. -/
structure CheckData where
  results : List Term
  unique_count : Nat
  total_occurrences : Nat
deriving DecidableEq, Repr

/-- `Map.get` on the insertion-ordered association list embedding `termCache`. -/
def mapGet (c : List (String × CheckData)) (k : String) : Option CheckData :=
  (c.find? (fun p => p.1 == k)).map (fun p => p.2)

/-- `Map.set` on the `termCache` embedding: replace in place when the key is
present, append otherwise. -/
def mapSet (c : List (String × CheckData)) (k : String) (v : CheckData) :
    List (String × CheckData) :=
  if c.any (fun p => p.1 == k) then
    c.map (fun p => if p.1 == k then (k, v) else p)
  else c ++ [(k, v)]

/-- The cache write of `checkMedicalTerms`: set the key, then if the size
exceeds 100 delete the first (oldest inserted) key. -/
def insertEvict (c : List (String × CheckData)) (k : String) (v : CheckData) :
    List (String × CheckData) :=
  let c' := mapSet c k v
  if c'.length > 100 then c'.tail else c'

/-- Pure core of `checkMedicalTerms` (MedicalSpellChecker.js): normalize and
trim the text, return no spans for blank input, serve from `termCache` under
the trimmed lowercased key, and on a miss call the backend with the
non-trimmed text and cache its payload.  Returns the span list and the
updated cache; the backend function stands for the unchanged server state. -/
def checkMedicalTerms (backend : String → CheckData)
    (termCache : List (String × CheckData)) (textToCheck : String) :
    List Term × List (String × CheckData) :=
  let normalized := textToCheck
  let trimmed := strTrim normalized
  if trimmed = "" then ([], termCache)
  else
    let cacheKey := strLower trimmed
    match mapGet termCache cacheKey with
    | some cached => (cached.results, termCache)
    | none =>
      let data := backend normalized
      (data.results, insertEvict termCache cacheKey data)

/-- A row of the database cache tables: normalized-term key, payload, and the
explicit expiry timestamp of `database_schema.sql`. -/
structure SqlCacheRow where
  key : String
  payload : String
  expires_at : Int
deriving DecidableEq, Repr

/-- The periodic sweep `cleanup_expired_cache` of `database_schema.sql`:
`DELETE FROM ... WHERE expires_at < NOW()` keeps exactly the rows that are
not yet expired. -/
def cleanup_expired_cache (now : Int) (rows : List SqlCacheRow) : List SqlCacheRow :=
  rows.filter (fun r => ¬ r.expires_at < now)

/-- Modelled from the spec: the backend cache lookup is not under src/ (only
the sweep and the schema are).  Per §4.3 and §8, a lookup returns the stored
row only when it is present and not past its `expires_at`; an expired entry
behaves as a miss. -/
def cacheLookup (now : Int) (rows : List SqlCacheRow) (k : String) : Option SqlCacheRow :=
  match rows.find? (fun r => r.key == k) with
  | some r => if r.expires_at < now then none else some r
  | none => none

/-- The misspelled span of the spec's running example:
`"Patient takes wofarin daily"` yields `(14, 21)` with surface `"wofarin"`. -/
def wofarinSpan : Term :=
  { term := "wofarin", start := 14, «end» := 21, is_correct := false,
    needs_correction := true, source := "local_dictionary", category := "medication",
    alternatives := ["warfarin"] }

/-- A second span safely after the example's replaced range. -/
def dailySpan : Term :=
  { term := "daily", start := 22, «end» := 27, is_correct := true,
    needs_correction := false, source := "local_dictionary", category := "general",
    alternatives := [] }

/-- A correctly spelled five-character spelling span at offsets (0, 5). -/
def spellSpanFive : Term :=
  { term := "abcde", start := 0, «end» := 5, is_correct := true,
    needs_correction := false, source := "snomed_ct", category := "general",
    alternatives := [] }

/-- A confusion match at offsets (0, 4): it overlaps `spellSpanFive` without
sharing its key. -/
def confusionFour : Term :=
  { term := "abcd", start := 0, «end» := 4, is_correct := false,
    needs_correction := false, source := "drug_confusion", category := "drug_confusion",
    alternatives := ["abce"] }

/-- A correctly spelled `hydralazine` spelling span at offsets (0, 11). -/
def hydralazineSpell : Term :=
  { term := "hydralazine", start := 0, «end» := 11, is_correct := true,
    needs_correction := false, source := "snomed_ct", category := "medication",
    alternatives := [] }

/-- A drug-confusion match with the same (start, end, term) key as
`hydralazineSpell`. -/
def hydralazineConfusion : Term :=
  { term := "hydralazine", start := 0, «end» := 11, is_correct := false,
    needs_correction := false, source := "drug_confusion", category := "drug_confusion",
    alternatives := ["hydroxyzine"] }

/-- A selected span absent from the lists supplied to the reconciler. -/
def staleSelected : Term :=
  { term := "abc", start := 0, «end» := 3, is_correct := false,
    needs_correction := true, source := "local_dictionary", category := "general",
    alternatives := [] }

/-- A span entirely after `staleSelected`'s range. -/
def afterSpan : Term :=
  { term := "xyz", start := 5, «end» := 8, is_correct := true,
    needs_correction := false, source := "snomed_ct", category := "general",
    alternatives := [] }

/-- An empty cached payload. -/
def emptyData : CheckData :=
  { results := [], unique_count := 0, total_occurrences := 0 }

/-- A full 100-entry `termCache` whose oldest inserted key is `"0"`. -/
def fullCache : List (String × CheckData) :=
  (List.range 100).map (fun i => (toString i, emptyData))

/-- A degenerate span as a backend could return it: end equals start. -/
def degenerateSpan : Term :=
  { term := "", start := 3, «end» := 3, is_correct := false,
    needs_correction := true, source := "local_dictionary", category := "general",
    alternatives := [] }

/-- A cache row that expired at time 3. -/
def expiredRow : SqlCacheRow :=
  { key := "warfarin", payload := "cached", expires_at := 3 }

theorem jsSubstring_zero (s : String) (a : Nat) :
    jsSubstring s 0 a = (s.data.take a).asString := by
  simp [jsSubstring]

theorem jsSubstring_to_length (s : String) (b : Nat) :
    jsSubstring s b s.data.length = (s.data.drop b).asString := by
  unfold jsSubstring
  rcases Nat.le_total b s.data.length with h | h
  · rw [Nat.min_eq_left h, Nat.max_eq_right h]
    congr 1
    apply List.take_of_length_le
    simp
  · rw [Nat.min_eq_right h, Nat.max_eq_left h]
    rw [List.drop_length, List.drop_eq_nil_of_le h]
    simp

/-- C1.  Accepting a suggestion with replacement text `R` for the selected
span `S = [start, end)` rewrites the text to `prefix ++ R ++ suffix` and
updates the span list exactly as the spec's reconciler clauses state: `S`
becomes a user-corrected span with surface `R`, start unchanged and end
`start + len R`; spans ending at or before `start` are untouched; spans
starting at or after `end` are shifted by `delta` with classification fields
untouched; partially overlapping spans are dropped. -/
theorem accept_rewrites_text_and_reconciles_spans (sel : Term) (R : String)
    (terms : List Term) (text : String) :
    acceptTermsLoop sel R terms = spanReconcilerSpec sel R terms ∧
    newTextAfterAccept sel R text =
      (text.data.take sel.start.toNat).asString ++ R ++
        (text.data.drop sel.«end».toNat).asString := by
  constructor
  · induction terms with
    | nil => rfl
    | cons t ts ih =>
      simp only [acceptTermsLoop, spanReconcilerSpec, List.filterMap_cons] at ih ⊢
      by_cases h1 : isSelectedSpan sel t
      · simp [h1, correctedFrom, ih]
      · by_cases h2 : t.«end» ≤ sel.start
        · simp [h1, h2, ih]
        · by_cases h3 : sel.«end» ≤ t.start
          · simp [h1, h2, h3, shiftBy, ih]
          · simp [h1, h2, h3, ih]
  · unfold newTextAfterAccept
    rw [jsSubstring_zero, jsSubstring_to_length]

/-- C3.  The ignore action maps the matched span to its reviewed version and
copies every other span verbatim; the reviewed version carries classification
`UserCorrected` while keeping surface text, start and end unchanged. -/
theorem ignore_marks_selected_span_reviewed (sel t : Term) (terms : List Term) :
    ignoreTermsLoop sel terms =
      terms.map (fun u => if isSelectedSpan sel u then markReviewed u else u) ∧
    classificationOf (markReviewed t) = Classification.UserCorrected ∧
    (markReviewed t).term = t.term ∧
    (markReviewed t).start = t.start ∧
    (markReviewed t).«end» = t.«end» := by
  refine ⟨?_, ?_, rfl, rfl, rfl⟩
  · induction terms with
    | nil => rfl
    | cons u us ih =>
      simp only [ignoreTermsLoop, List.map_cons]
      split <;> simp [ih]
  · rfl

theorem mapGet_none_all (c : List (String × CheckData)) (k : String)
    (h : mapGet c k = none) : ∀ p ∈ c, ¬ (p.1 == k) = true := by
  apply List.find?_eq_none.mp
  cases hf : c.find? (fun p => p.1 == k) with
  | none => rfl
  | some p => rw [mapGet, hf] at h; cases h

theorem mapGet_insertEvict_self (c : List (String × CheckData)) (k : String)
    (v : CheckData) (h : mapGet c k = none) :
    mapGet (insertEvict c k v) k = some v := by
  have hall := mapGet_none_all c k h
  have hany : c.any (fun p => p.1 == k) = false := by
    rw [← Bool.not_eq_true, List.any_eq_true]
    rintro ⟨p, hp, hb⟩
    exact hall p hp hb
  have hset : mapSet c k v = c ++ [(k, v)] := by
    unfold mapSet
    rw [if_neg (by simp [hany])]
  have hfind : (c ++ [(k, v)]).find? (fun p => p.1 == k) = some (k, v) := by
    rw [List.find?_append, List.find?_eq_none.mpr hall]
    simp
  unfold insertEvict
  rw [hset]
  simp only [gt_iff_lt]
  split
  · rename_i hlen
    have hne : c ≠ [] := by
      intro hc
      rw [hc] at hlen
      simp at hlen
    rw [List.tail_append_of_ne_nil hne]
    have htall : ∀ p ∈ c.tail, ¬ (p.1 == k) = true := by
      intro p hp
      exact hall p (List.mem_of_mem_tail hp)
    rw [mapGet, List.find?_append, List.find?_eq_none.mpr htall]
    simp
  · rw [mapGet, hfind]
    rfl

/-- C5.  Re-resolving the same text against the cache state left by the first
resolution returns exactly the span list of the first resolution: a cache hit
leaves the cache untouched, and a miss stores the very payload whose spans
were returned, so the second run serves identical spans in identical order. -/
theorem resolve_rerun_deterministic (backend : String → CheckData)
    (cache : List (String × CheckData)) (text : String) :
    (checkMedicalTerms backend (checkMedicalTerms backend cache text).2 text).1 =
      (checkMedicalTerms backend cache text).1 := by
  unfold checkMedicalTerms
  by_cases h0 : strTrim text = ""
  · simp [h0]
  · simp only [h0, if_false, if_neg h0]
    cases hg : mapGet cache (strLower (strTrim text)) with
    | some d => simp [hg]
    | none =>
      simp only [hg]
      rw [mapGet_insertEvict_self cache (strLower (strTrim text)) (backend text) hg]

/-- C6.  A cache lookup at time `now` never returns a row past its
`expires_at`; a row found but expired behaves as a miss; and the periodic
sweep `cleanup_expired_cache` leaves no expired row behind. -/
theorem cache_lookup_never_returns_expired (now : Int) (rows : List SqlCacheRow)
    (k : String) :
    (∀ r, cacheLookup now rows k = some r → ¬ r.expires_at < now) ∧
    (∀ r, rows.find? (fun x => x.key == k) = some r → r.expires_at < now →
      cacheLookup now rows k = none) ∧
    (∀ s ∈ cleanup_expired_cache now rows, ¬ s.expires_at < now) := by
  refine ⟨?_, ?_, ?_⟩
  · intro r h
    unfold cacheLookup at h
    split at h
    · split at h
      · cases h
      · rename_i he
        cases h
        exact he
    · cases h
  · intro r hf he
    unfold cacheLookup
    rw [hf]
    simp [he]
  · intro s hs
    have hm := List.mem_filter.mp hs
    simpa using hm.2

/-- Witness for C6: the row stored under `"warfarin"` expired at time 3, so a
lookup at time 10 misses. -/
theorem cache_lookup_never_returns_expired_witness :
    cacheLookup 10 [expiredRow] "warfarin" = none :=
  (cache_lookup_never_returns_expired 10 [expiredRow] "warfarin").2.1 expiredRow
    (by decide) (by decide)

/-- Counterexample for C7: with the 100-entry cache full, a lookup hit on key
`"0"` leaves the cache unchanged (hits never reorder anything), yet the very
next insertion evicts key `"0"` — the entry whose hit is most recent is
exactly the one evicted, so the eviction is not least-recently-used. -/
theorem lru_eviction_counterexample :
    (checkMedicalTerms (fun _ => emptyData) fullCache "0").2 = fullCache ∧
    mapGet fullCache "0" = some emptyData ∧
    mapGet (insertEvict fullCache "newkey" emptyData) "newkey" = some emptyData ∧
    mapGet (insertEvict fullCache "newkey" emptyData) "0" = none :=
  ⟨by decide, by decide, by decide, by decide⟩

/-- C7 (amended).  The term cache is capacity-bounded at 100 entries; when an
insertion of a fresh key exceeds capacity it evicts the first-inserted
(oldest) entry, first-in-first-out; and a lookup hit does not modify the
cache, so hit recency cannot influence the eviction choice. -/
theorem cache_fifo_eviction_capacity (c : List (String × CheckData)) (k : String)
    (v : CheckData) (b : String → CheckData) (t : String) (d : CheckData)
    (hc : c.length ≤ 100) :
    (insertEvict c k v).length ≤ 100 ∧
    (mapGet c k = none → c.length = 100 → insertEvict c k v = c.tail ++ [(k, v)]) ∧
    (strTrim t ≠ "" → mapGet c (strLower (strTrim t)) = some d →
      (checkMedicalTerms b c t).2 = c) := by
  have hlen : (mapSet c k v).length ≤ c.length + 1 := by
    unfold mapSet
    split
    · simp
    · simp
  refine ⟨?_, ?_, ?_⟩
  · unfold insertEvict
    simp only [gt_iff_lt]
    split
    · rename_i hgt
      simp only [List.length_tail]
      omega
    · rename_i hle
      omega
  · intro hnone h100
    have hall := mapGet_none_all c k hnone
    have hany : c.any (fun p => p.1 == k) = false := by
      rw [← Bool.not_eq_true, List.any_eq_true]
      rintro ⟨p, hp, hb⟩
      exact hall p hp hb
    have hset : mapSet c k v = c ++ [(k, v)] := by
      unfold mapSet
      rw [if_neg (by simp [hany])]
    have hne : c ≠ [] := by
      intro hcn
      rw [hcn] at h100
      cases h100
    unfold insertEvict
    rw [hset, if_pos (by simp [h100]), List.tail_append_of_ne_nil hne]
  · intro h1 h2
    unfold checkMedicalTerms
    rw [if_neg h1]
    simp only [h2]

/-- Witness for C7 (amended): inserting a fresh key into the full cache drops
the oldest entry and appends the new pair at the end. -/
theorem cache_fifo_eviction_capacity_witness :
    insertEvict fullCache "newkey" emptyData = fullCache.tail ++ [("newkey", emptyData)] :=
  (cache_fifo_eviction_capacity fullCache "newkey" emptyData (fun _ => emptyData)
    "x" emptyData (by decide)).2.1 (by decide) (by decide)

theorem ignoreTermsLoop_no_match (sel : Term) (terms : List Term)
    (h : terms.any (isSelectedSpan sel) = false) :
    ignoreTermsLoop sel terms = terms := by
  induction terms with
  | nil => rfl
  | cons t ts ih =>
    rw [List.any_cons, Bool.or_eq_false_iff] at h
    rw [ignoreTermsLoop, if_neg (by simp [h.1]), ih h.2]

theorem ignoreConfusionLoop_no_match (sel : Term) (tp : Bool) (conf : List Term)
    (h : conf.any (isSelectedSpan sel) = false) :
    ignoreConfusionLoop sel tp conf = ([], conf) := by
  induction conf with
  | nil => rfl
  | cons c cs ih =>
    rw [List.any_cons, Bool.or_eq_false_iff] at h
    rw [ignoreConfusionLoop]
    simp only [ih h.2]
    rw [if_neg (by simp [h.1])]

theorem acceptTermsLoop_no_match (sel : Term) (R : String) (terms : List Term)
    (h : terms.any (isSelectedSpan sel) = false) :
    acceptTermsLoop sel R terms = terms.filterMap (keepOrShift sel R) := by
  induction terms with
  | nil => rfl
  | cons t ts ih =>
    rw [List.any_cons, Bool.or_eq_false_iff] at h
    rw [acceptTermsLoop, if_neg (by simp [h.1]), List.filterMap_cons]
    have hk : keepOrShift sel R t =
        if t.«end» ≤ sel.start then some t
        else if sel.«end» ≤ t.start then some (shiftBy (deltaOf sel R) t)
        else none := rfl
    rw [hk]
    by_cases h2 : t.«end» ≤ sel.start
    · simp only [if_pos h2]
      rw [ih h.2]
    · by_cases h3 : sel.«end» ≤ t.start
      · simp only [if_neg h2, if_pos h3]
        rw [ih h.2]
      · simp only [if_neg h2, if_neg h3]
        exact ih h.2

theorem acceptConfusionLoop_no_match (sel : Term) (R : String) (conf : List Term)
    (h : conf.any (isSelectedSpan sel) = false) :
    acceptConfusionLoop sel R conf = ([], conf.filterMap (keepOrShift sel R)) := by
  induction conf with
  | nil => rfl
  | cons c cs ih =>
    rw [List.any_cons, Bool.or_eq_false_iff] at h
    rw [acceptConfusionLoop]
    simp only [ih h.2]
    rw [if_neg (by simp [h.1]), List.filterMap_cons]
    have hk : keepOrShift sel R c =
        if c.«end» ≤ sel.start then some c
        else if sel.«end» ≤ c.start then some (shiftBy (deltaOf sel R) c)
        else none := rfl
    rw [hk]
    by_cases h2 : c.«end» ≤ sel.start
    · simp [if_pos h2]
    · by_cases h3 : sel.«end» ≤ c.start
      · simp [if_neg h2, if_pos h3]
      · simp [if_neg h2, if_neg h3]

/-- Counterexample for C8: the selected span is absent from the supplied
lists, yet the accept reconciliation is not a no-op — the span after the
replaced range is still shifted by `delta = 1`. -/
theorem stale_accept_not_noop_counterexample :
    [afterSpan].any (isSelectedSpan staleSelected) = false ∧
    (handleSuggestionSelect staleSelected "abcd" [afterSpan] []).1 ≠ [afterSpan] ∧
    (handleSuggestionSelect staleSelected "abcd" [afterSpan] []).2 = [] :=
  ⟨by decide, by decide, by decide⟩

/-- C8 (amended).  When the referenced span is absent from both supplied
lists, the ignore reconciliation is a no-op and raises no error; the accept
reconciliation raises no error and adds no corrected span, but still shifts
spans at or after the replaced range by `delta` and drops overlapping spans,
keeping offsets consistent with the text rewrite that still takes place. -/
theorem stale_reconciliation_behavior (sel : Term) (R : String)
    (terms conf : List Term)
    (h1 : terms.any (isSelectedSpan sel) = false)
    (h2 : conf.any (isSelectedSpan sel) = false) :
    handleIgnoreTerm sel terms conf = (terms, conf) ∧
    (handleSuggestionSelect sel R terms conf).1 = terms.filterMap (keepOrShift sel R) ∧
    (handleSuggestionSelect sel R terms conf).2 = conf.filterMap (keepOrShift sel R) := by
  refine ⟨?_, ?_, ?_⟩
  · unfold handleIgnoreTerm
    simp only [h1, ignoreConfusionLoop_no_match sel false conf h2,
      ignoreTermsLoop_no_match sel terms h1, List.append_nil]
  · unfold handleSuggestionSelect
    simp only [acceptConfusionLoop_no_match sel R conf h2,
      acceptTermsLoop_no_match sel R terms h1, List.append_nil]
  · unfold handleSuggestionSelect
    simp only [acceptConfusionLoop_no_match sel R conf h2]

/-- Witness for C8 (amended): ignoring a span absent from both lists returns
the lists unchanged. -/
theorem stale_reconciliation_behavior_witness :
    handleIgnoreTerm staleSelected [afterSpan] [] = ([afterSpan], []) :=
  (stale_reconciliation_behavior staleSelected "abcd" [afterSpan] []
    (by decide) (by decide)).1

theorem sameKey_iff (a b : Term) :
    sameKey a b = true ↔ a.start = b.start ∧ a.«end» = b.«end» ∧ a.term = b.term := by
  simp [sameKey, Bool.and_eq_true, and_assoc]

theorem sameKey_of_sameKey (a e t : Term) (h1 : sameKey a e = true)
    (h2 : sameKey a t = true) : sameKey e t = true := by
  rw [sameKey_iff] at h1 h2 ⊢
  obtain ⟨x1, x2, x3⟩ := h1
  obtain ⟨y1, y2, y3⟩ := h2
  exact ⟨x1 ▸ y1, x2 ▸ y2, x3 ▸ y3⟩

theorem sameKey_confusionEntry (m t : Term) :
    sameKey (confusionEntry m) t = sameKey m t := by
  simp [sameKey, confusionEntry]

theorem mapSetTerm_any_key (acc : List Term) (e t : Term) :
    (mapSetTerm acc e).any (fun x => sameKey x t) =
      (acc.any (fun x => sameKey x t) || sameKey e t) := by
  unfold mapSetTerm
  split
  · rename_i hpresent
    by_cases het : sameKey e t = true
    · simp only [het, Bool.or_true]
      obtain ⟨x, hx, hxe⟩ := List.any_eq_true.mp hpresent
      apply List.any_eq_true.mpr
      exact ⟨e, List.mem_map.mpr ⟨x, hx, by simp [hxe]⟩, het⟩
    · rw [Bool.eq_false_iff.mpr het, Bool.or_false, List.any_map]
      clear hpresent
      induction acc with
      | nil => rfl
      | cons a l ih2 =>
        simp only [List.any_cons, ih2]
        congr 1
        simp only [Function.comp]
        by_cases hxe : sameKey a e = true
        · rw [if_pos hxe]
          by_cases hat : sameKey a t = true
          · exact absurd (sameKey_of_sameKey a e t hxe hat) het
          · rw [Bool.eq_false_iff.mpr het, Bool.eq_false_iff.mpr hat]
        · rw [if_neg hxe]
  · simp [List.any_append]

theorem confusionTermsMap_go_any_key (l acc : List Term) (t : Term) :
    ((l.foldl (fun acc m => mapSetTerm acc (confusionEntry m)) acc).any
      (fun x => sameKey x t)) =
      (acc.any (fun x => sameKey x t) || l.any (fun m => sameKey m t)) := by
  induction l generalizing acc with
  | nil => simp
  | cons m ms ih =>
    rw [List.foldl_cons, List.any_cons, ih, mapSetTerm_any_key,
      sameKey_confusionEntry, Bool.or_assoc]

theorem confusionTermsMap_any_key (conf : List Term) (t : Term) :
    (confusionTermsMap conf).any (fun x => sameKey x t) =
      conf.any (fun m => sameKey m t) := by
  rw [confusionTermsMap, confusionTermsMap_go_any_key]
  simp

theorem mapSetTerm_source (acc : List Term) (e x : Term)
    (hacc : ∀ y ∈ acc, y.source = "drug_confusion")
    (he : e.source = "drug_confusion") (hx : x ∈ mapSetTerm acc e) :
    x.source = "drug_confusion" := by
  unfold mapSetTerm at hx
  split at hx
  · obtain ⟨y, hy, hyx⟩ := List.mem_map.mp hx
    by_cases hye : sameKey y e = true
    · rw [if_pos hye] at hyx
      exact hyx ▸ he
    · rw [if_neg hye] at hyx
      exact hyx ▸ hacc y hy
  · rcases List.mem_append.mp hx with hmem | hmem
    · exact hacc x hmem
    · rw [List.mem_singleton.mp hmem]
      exact he

theorem confusionTermsMap_go_source (l acc : List Term)
    (hacc : ∀ y ∈ acc, y.source = "drug_confusion") :
    ∀ e ∈ l.foldl (fun acc m => mapSetTerm acc (confusionEntry m)) acc,
      e.source = "drug_confusion" := by
  induction l generalizing acc with
  | nil => exact hacc
  | cons m ms ih =>
    rw [List.foldl_cons]
    exact ih _ (fun y hy => mapSetTerm_source acc (confusionEntry m) y hacc rfl hy)

/-- Counterexample for C4: the confusion match at (0, 4) overlaps the
correctly spelled spelling span at (0, 5) without sharing its exact key, and
the spelling span survives in the combined list with its plain spelling
classification instead of being suppressed and presented as drug-confusable. -/
theorem overlap_override_counterexample :
    overlapsSpan confusionFour spellSpanFive ∧
    sameKey confusionFour spellSpanFive = false ∧
    spellSpanFive ∈ combinedTerms [spellSpanFive] [confusionFour] ∧
    classificationOf spellSpanFive = Classification.Correct :=
  ⟨by decide, by decide, by decide, by decide⟩

/-- C4 (amended).  The drug-confusion override applies exactly on key
equality: when a confusion match shares a spelling span's (start, end, term)
key, the spelling span is suppressed from the filtered spell-check list and
the combined result carries a drug-confusion entry with that key, classified
`DrugConfusable` regardless of the span's spelling classification; spans that
merely overlap without key equality are not suppressed. -/
theorem drug_confusion_overrides_on_exact_key (terms conf : List Term) (t : Term)
    (_ht : t ∈ terms) (hk : conf.any (fun m => sameKey m t) = true) :
    t ∉ filteredMedicalTerms terms conf ∧
    ∃ e ∈ combinedTerms terms conf, sameKey e t = true ∧
      classificationOf e = Classification.DrugConfusable := by
  have hmapany : (confusionTermsMap conf).any (fun x => sameKey x t) = true := by
    rw [confusionTermsMap_any_key]
    exact hk
  constructor
  · intro hmem
    have hfm := List.mem_filter.mp hmem
    rw [hmapany] at hfm
    simp at hfm
  · obtain ⟨e, he, hke⟩ := List.any_eq_true.mp hmapany
    refine ⟨e, List.mem_append_right _ he, hke, ?_⟩
    have hsrc : e.source = "drug_confusion" :=
      confusionTermsMap_go_source conf [] (by simp) e he
    simp [classificationOf, hsrc]

/-- Witness for C4 (amended): the correctly spelled `hydralazine` span shares
its key with a confusion match and is suppressed from the filtered list. -/
theorem drug_confusion_overrides_on_exact_key_witness :
    hydralazineSpell ∉ filteredMedicalTerms [hydralazineSpell] [hydralazineConfusion] :=
  (drug_confusion_overrides_on_exact_key [hydralazineSpell] [hydralazineConfusion]
    hydralazineSpell (by decide) (by decide)).1

theorem isSelectedSpan_self (sel : Term) : isSelectedSpan sel sel = true := by
  simp [isSelectedSpan]

theorem acceptTermsLoop_keep_before (sel : Term) (R : String) (l₁ l₂ : List Term)
    (hsel : sel.start < sel.«end») (hb : ∀ t ∈ l₁, t.«end» ≤ sel.start) :
    acceptTermsLoop sel R (l₁ ++ l₂) = l₁ ++ acceptTermsLoop sel R l₂ := by
  induction l₁ with
  | nil => rfl
  | cons t ts ih =>
    have ht : t.«end» ≤ sel.start := hb t (List.mem_cons_self t ts)
    have hmatch : ¬ isSelectedSpan sel t = true := by
      intro h
      simp only [isSelectedSpan, Bool.and_eq_true, beq_iff_eq] at h
      omega
    rw [List.cons_append, acceptTermsLoop, if_neg hmatch, if_pos ht,
      ih (fun u hu => hb u (List.mem_cons_of_mem t hu))]
    rfl

theorem acceptTermsLoop_shift_suffix (sel : Term) (R : String) (l₂ : List Term)
    (hsel : sel.start < sel.«end») (ha : ∀ t ∈ l₂, sel.«end» ≤ t.start)
    (hpos : ∀ t ∈ l₂, t.start < t.«end») :
    acceptTermsLoop sel R l₂ = l₂.map (shiftBy (deltaOf sel R)) := by
  induction l₂ with
  | nil => rfl
  | cons t ts ih =>
    have hat : sel.«end» ≤ t.start := ha t (List.mem_cons_self t ts)
    have htp : t.start < t.«end» := hpos t (List.mem_cons_self t ts)
    have hmatch : ¬ isSelectedSpan sel t = true := by
      intro h
      simp only [isSelectedSpan, Bool.and_eq_true, beq_iff_eq] at h
      omega
    rw [acceptTermsLoop, if_neg hmatch, if_neg (by omega), if_pos hat, List.map_cons,
      ih (fun u hu => ha u (List.mem_cons_of_mem t hu))
        (fun u hu => hpos u (List.mem_cons_of_mem t hu))]

/-- C9.  On a well-formed span list (pairwise non-overlapping, positive
spans) that contains the selected span, the accept reconciliation returns a
list that is again sorted ascending by start and pairwise non-overlapping;
the corrected span occupies `[start, start + len R)` and every shifted span
begins at or after `start + len R`. -/
theorem accept_preserves_wellformedness (sel : Term) (R : String) (terms : List Term)
    (hpw : List.Pairwise (fun a b => a.«end» ≤ b.start) terms)
    (hpos : ∀ t ∈ terms, t.start < t.«end»)
    (hmem : sel ∈ terms) :
    List.Pairwise (fun a b => a.start ≤ b.start ∧ a.«end» ≤ b.start)
      (acceptTermsLoop sel R terms) ∧
    correctedFrom sel R sel ∈ acceptTermsLoop sel R terms ∧
    (correctedFrom sel R sel).start = sel.start ∧
    (correctedFrom sel R sel).«end» = sel.start + (R.length : Int) ∧
    (∀ t ∈ terms, sel.«end» ≤ t.start →
      shiftBy (deltaOf sel R) t ∈ acceptTermsLoop sel R terms ∧
      sel.start + (R.length : Int) ≤ (shiftBy (deltaOf sel R) t).start) := by
  have hsel : sel.start < sel.«end» := hpos sel hmem
  obtain ⟨l₁, l₂, rfl⟩ := List.append_of_mem hmem
  rw [List.pairwise_append] at hpw
  obtain ⟨hpw1, hpw2c, hcross⟩ := hpw
  rw [List.pairwise_cons] at hpw2c
  obtain ⟨hsel2, hpw2⟩ := hpw2c
  have hb : ∀ t ∈ l₁, t.«end» ≤ sel.start := fun t ht =>
    hcross t ht sel (List.mem_cons_self sel l₂)
  have hpos1 : ∀ t ∈ l₁, t.start < t.«end» := fun t ht =>
    hpos t (List.mem_append_left _ ht)
  have hpos2 : ∀ t ∈ l₂, t.start < t.«end» := fun t ht =>
    hpos t (List.mem_append_right _ (List.mem_cons_of_mem sel ht))
  have hout : acceptTermsLoop sel R (l₁ ++ sel :: l₂) =
      l₁ ++ correctedFrom sel R sel :: l₂.map (shiftBy (deltaOf sel R)) := by
    rw [acceptTermsLoop_keep_before sel R l₁ (sel :: l₂) hsel hb]
    congr 1
    rw [acceptTermsLoop, if_pos (isSelectedSpan_self sel),
      acceptTermsLoop_shift_suffix sel R l₂ hsel hsel2 hpos2]
  have hshift_lb : ∀ t ∈ l₂,
      sel.start + (R.length : Int) ≤ (shiftBy (deltaOf sel R) t).start := by
    intro t ht
    have := hsel2 t ht
    simp only [shiftBy, deltaOf]
    omega
  rw [hout]
  refine ⟨?_, ?_, rfl, rfl, ?_⟩
  · rw [List.pairwise_append]
    refine ⟨?_, ?_, ?_⟩
    · exact hpw1.imp_of_mem (fun {a b} haa hbb hab =>
        ⟨le_of_lt (lt_of_lt_of_le (hpos1 a haa) hab), hab⟩)
    · rw [List.pairwise_cons]
      constructor
      · intro u hu
        obtain ⟨t, ht, rfl⟩ := List.mem_map.mp hu
        have h1 := hsel2 t ht
        have h2 := hshift_lb t ht
        constructor
        · simp only [correctedFrom, shiftBy, deltaOf] at h2 ⊢
          omega
        · simp only [correctedFrom, shiftBy, deltaOf] at h2 ⊢
          omega
      · rw [List.pairwise_map]
        refine hpw2.imp_of_mem (fun {a b} haa hbb hab => ?_)
        have := hpos2 a haa
        simp only [shiftBy]
        exact ⟨by omega, by omega⟩
    · intro a ha b hbm
      have hae : a.«end» ≤ sel.start := hb a ha
      have hap : a.start < a.«end» := hpos1 a ha
      rcases List.mem_cons.mp hbm with rfl | hbm
      · simp only [correctedFrom]
        constructor <;> omega
      · obtain ⟨t, ht, rfl⟩ := List.mem_map.mp hbm
        have h2 := hshift_lb t ht
        have hnn : (0 : Int) ≤ (R.length : Int) := Int.ofNat_nonneg _
        simp only [shiftBy, deltaOf] at h2 ⊢
        constructor <;> omega
  · exact List.mem_append_right _ (List.mem_cons_self _ _)
  · intro t ht hafter
    rcases List.mem_append.mp ht with h1m | h2m
    · exact absurd hafter (by have := hb t h1m; have := hpos1 t h1m; omega)
    · rcases List.mem_cons.mp h2m with rfl | h2m
      · exact absurd hafter (by omega)
      · refine ⟨List.mem_append_right _
          (List.mem_cons_of_mem _ (List.mem_map_of_mem _ h2m)), hshift_lb t h2m⟩

/-- Witness for C9: on the spec's example list with the replacement
`"warfarin"`, the reconciled list is sorted and non-overlapping. -/
theorem accept_preserves_wellformedness_witness :
    List.Pairwise (fun a b => a.start ≤ b.start ∧ a.«end» ≤ b.start)
      (acceptTermsLoop wofarinSpan "warfarin" [wofarinSpan, dailySpan]) :=
  (accept_preserves_wellformedness wofarinSpan "warfarin" [wofarinSpan, dailySpan]
    (by decide) (by decide) (by decide)).1

/-- C10.  With the selected span present identically in both the spelling
list and the confusion list, accepting a suggestion produces two
user-corrected spans in the resulting term list (the confusion loop lacks the
`termProcessed` guard), while ignoring produces exactly one; both actions
remove the span from the confusion list. -/
theorem accept_duplicates_user_corrected_span :
    ((handleSuggestionSelect hydralazineSpell "hydroxyzine"
      [hydralazineSpell] [hydralazineConfusion]).1.countP
        (fun t => t.source == "user_corrected")) = 2 ∧
    ((handleIgnoreTerm hydralazineSpell
      [hydralazineSpell] [hydralazineConfusion]).1.countP
        (fun t => t.source == "user_corrected")) = 1 ∧
    (handleSuggestionSelect hydralazineSpell "hydroxyzine"
      [hydralazineSpell] [hydralazineConfusion]).2 = [] ∧
    (handleIgnoreTerm hydralazineSpell
      [hydralazineSpell] [hydralazineConfusion]).2 = [] :=
  ⟨by decide, by decide, by decide, by decide⟩

theorem mem_insertByStart (t v : Term) (l : List Term) :
    v ∈ insertByStart t l ↔ v = t ∨ v ∈ l := by
  induction l with
  | nil => simp [insertByStart]
  | cons u us ih =>
    rw [insertByStart]
    split
    · simp
    · simp only [List.mem_cons, ih]
      tauto

theorem insertByStart_sorted (t : Term) (l : List Term)
    (h : List.Pairwise (fun a b => a.start ≤ b.start) l) :
    List.Pairwise (fun a b => a.start ≤ b.start) (insertByStart t l) := by
  induction l with
  | nil => simp [insertByStart]
  | cons u us ih =>
    rw [List.pairwise_cons] at h
    rw [insertByStart]
    split
    · rename_i hle
      rw [List.pairwise_cons]
      refine ⟨?_, List.pairwise_cons.mpr h⟩
      intro v hv
      rcases List.mem_cons.mp hv with rfl | hv
      · exact hle
      · exact le_trans hle (h.1 v hv)
    · rename_i hgt
      rw [List.pairwise_cons]
      refine ⟨?_, ih h.2⟩
      intro v hv
      rcases (mem_insertByStart t v us).mp hv with rfl | hv
      · omega
      · exact h.1 v hv

theorem sortByStart_sorted (l : List Term) :
    List.Pairwise (fun a b => a.start ≤ b.start) (sortByStart l) := by
  induction l with
  | nil => simp [sortByStart]
  | cons t ts ih => exact insertByStart_sorted t (sortByStart ts) ih

/-- Counterexample for C2: the span list one resolution presents — the sorted
combination of the spell-check results and the confusion matches — can
contain overlapping spans (a spelling span at (0, 5) and a confusion entry at
(0, 4) coexist), and a degenerate backend span with end = start passes
through unchecked, so neither non-overlap nor span positivity holds for the
produced list. -/
theorem resolution_overlap_positivity_counterexample :
    sortedTerms [spellSpanFive] [confusionFour] =
      [spellSpanFive, confusionEntry confusionFour] ∧
    ¬ List.Pairwise (fun a b => a.«end» ≤ b.start)
      (sortedTerms [spellSpanFive] [confusionFour]) ∧
    overlapsSpan confusionFour spellSpanFive ∧
    degenerateSpan ∈ sortedTerms [degenerateSpan] [] ∧
    ¬ degenerateSpan.start < degenerateSpan.«end» :=
  ⟨by decide, by decide, by decide, by decide, by decide⟩

/-- C2 (amended).  For every spell-check and confusion state, the span list a
resolution presents — `sortedTerms`, the render's stable sort of the combined
list — is sorted ascending by start; non-overlap and span positivity are not
established by the combination step and hold only when the supplied results
already satisfy them. -/
theorem resolution_sorted_by_start (medicalTerms confusionMatches : List Term) :
    List.Pairwise (fun a b => a.start ≤ b.start)
      (sortedTerms medicalTerms confusionMatches) :=
  sortByStart_sorted (combinedTerms medicalTerms confusionMatches)

end SOAP
